import Mathlib

set_option maxRecDepth 100000

/-!
Shallow embedding of the input-sanitization and prompt-budget pipeline of the
poke-bot RAG service (`internal/service/sanitize.go`,
`internal/service/rag.go`).  Strings are modelled as `List Char` (Go strings
interpreted as rune sequences; every input relevant to the verified claims is
ASCII, where Go byte length and rune count coincide).
-/

namespace PokeBot

/-- Unicode White_Space property, the set accepted by Go `unicode.IsSpace`
(and hence used by `strings.TrimSpace` and `strings.Fields`). -/
def isGoSpace (c : Char) : Bool :=
  c.toNat == 9 || c.toNat == 10 || c.toNat == 11 || c.toNat == 12 ||
  c.toNat == 13 || c.toNat == 32 || c.toNat == 0x85 || c.toNat == 0xA0 ||
  c.toNat == 0x1680 || (0x2000 ≤ c.toNat && c.toNat ≤ 0x200A) ||
  c.toNat == 0x2028 || c.toNat == 0x2029 || c.toNat == 0x202F ||
  c.toNat == 0x205F || c.toNat == 0x3000

/-- Go `strings.TrimSpace`: drop leading and trailing whitespace. -/
def trimSpace (s : List Char) : List Char :=
  ((s.dropWhile isGoSpace).reverse.dropWhile isGoSpace).reverse

/-- Character class of the Go regexp `[\x00-\x08\x0B\x0C\x0E-\x1F\x7F]`
(`controlCharPattern` in sanitize.go): C0 controls and DEL, minus tab
(0x09), newline (0x0A) and carriage return (0x0D). -/
def isRemovedControl (c : Char) : Bool :=
  c.toNat ≤ 0x08 || c.toNat == 0x0B || c.toNat == 0x0C ||
  (0x0E ≤ c.toNat && c.toNat ≤ 0x1F) || c.toNat == 0x7F

/-- Step 2 of `SanitizeInput`: `controlCharPattern.ReplaceAllString(cleaned, "")`,
which deletes every character of the class. -/
def removeControlChars (s : List Char) : List Char :=
  s.filter (fun c => !isRemovedControl c)

/-- Replacement table of Go `html.EscapeString` (package `html`):
`&`→`&amp;`, `'`→`&#39;`, `<`→`&lt;`, `>`→`&gt;`, `"`→`&#34;`. -/
def escapeChar (c : Char) : List Char :=
  if c = '&' then "&amp;".toList
  else if c = Char.ofNat 39 then "&#39;".toList
  else if c = '<' then "&lt;".toList
  else if c = '>' then "&gt;".toList
  else if c = Char.ofNat 34 then "&#34;".toList
  else [c]

/-- Go `html.EscapeString`. -/
def escapeString (s : List Char) : List Char :=
  s.flatMap escapeChar

/-- The character class `[ \t]` of `spacePattern` in `normalizeWhitespace`. -/
def isSpaceOrTab (c : Char) : Bool := c = ' ' || c = '\t'

/-- Run-collapsing scan: the boolean records whether the previous character
belonged to a space/tab run that has already emitted its single space. -/
def nwAux : Bool → List Char → List Char
  | _, [] => []
  | inRun, c :: rest =>
    if isSpaceOrTab c then
      if inRun then nwAux true rest else ' ' :: nwAux true rest
    else c :: nwAux false rest

/-- Go `normalizeWhitespace`: `regexp.MustCompile("[ \t]+").ReplaceAllString(s, " ")`.
Every maximal run of spaces and tabs collapses to one single space. -/
def normalizeWhitespace (s : List Char) : List Char :=
  nwAux false s

/-- Fuelled scan for `replaceAll`; one unit of fuel is spent per position and
at least one character is consumed per step, so fuel `s.length` completes the
scan. -/
def replaceAllF (pat rep : List Char) : Nat → List Char → List Char
  | 0, s => s
  | _ + 1, [] => []
  | fuel + 1, c :: rest =>
    if pat ≠ [] ∧ pat.isPrefixOf (c :: rest) then
      rep ++ replaceAllF pat rep fuel (rest.drop (pat.length - 1))
    else c :: replaceAllF pat rep fuel rest

/-- Leftmost, non-overlapping replacement of a fixed literal pattern: the
behaviour of Go `Regexp.ReplaceAllString` when the regexp matches only one
literal text. -/
def replaceAll (pat rep s : List Char) : List Char :=
  replaceAllF pat rep s.length s

/-- Go `limitConsecutiveNewlines(s, max)`.  The regexp source is built as
`"\n{" + strings.Repeat("", max) + ",}"`, and `strings.Repeat("", max)` is the
empty string, so the source is `\n{,}`.  Go's regexp parser treats the
malformed repetition `{,}` as literal text, so the compiled pattern matches
exactly the four-character text newline `\x7b` `,` `\x7d`, and each occurrence
is replaced by `max` newlines.  Consecutive newlines are therefore never
limited. -/
def limitConsecutiveNewlines (s : List Char) (mx : Nat) : List Char :=
  replaceAll ("\n\x7b,\x7d".toList) (List.replicate mx '\n') s

/-- Go `SanitizeInput` (sanitize.go lines 31-48): trim whitespace, strip the
control-character class, HTML-escape, collapse horizontal whitespace, then the
newline-run step (ineffective, see `limitConsecutiveNewlines`). -/
def SanitizeInput (input : List Char) : List Char :=
  limitConsecutiveNewlines
    (normalizeWhitespace (escapeString (removeControlChars (trimSpace input)))) 3

/-- C0 control characters and DEL: the full class the specification talks
about when it says "non-printable control characters". -/
def isC0OrDel (c : Char) : Bool :=
  decide (c.toNat ≤ 31) || c.toNat == 127

/-- The five characters `html.EscapeString` rewrites. -/
def isHtmlSpecial (c : Char) : Bool :=
  c = '&' || c = Char.ofNat 39 || c = '<' || c = '>' || c = Char.ofNat 34

/-- Go `countTokens` in the fallback mode in which the process-wide `tiktoken`
encoder is unavailable (`tokenizer == nil`): `len(text) / 4` with Go integer
(floor) division.  The exact cl100k_base encoder is an external dependency,
not code of this repository. -/
def countTokens (text : List Char) : Nat :=
  text.length / 4

/-! ### Prompt-injection detector (`DetectPromptInjection`, sanitize.go) -/

/-- RE2 Perl class `\s`: `[\t\n\f\r ]` (note: vertical tab is not included). -/
def isRegexpSpace (c : Char) : Bool :=
  c = '\t' || c = '\n' || c = '\x0C' || c = '\r' || c = ' '

/-- Element of one of the eight `promptInjectionPatterns` regexps, after
compiling alternations with optional `s?` into plain literal alternations
(sound for `MatchString`, which only asks for existence of a match). -/
inductive PatElem where
  | lit : List Char → PatElem
  | alts : List (List Char) → PatElem
  | wsPlus : PatElem
  | wsStar : PatElem

/-- Backtracking matcher: does some prefix of `s` match the element sequence?
Fuel decreases at every call; `matchesAt` supplies enough fuel for any
complete search. -/
def matchElems : Nat → List PatElem → List Char → Bool
  | 0, _, _ => false
  | _ + 1, [], _ => true
  | fuel + 1, e :: es, s =>
    match e with
    | .lit w => if w.isPrefixOf s then matchElems fuel es (s.drop w.length) else false
    | .alts ws =>
      ws.any (fun w => if w.isPrefixOf s then matchElems fuel es (s.drop w.length) else false)
    | .wsPlus =>
      match s with
      | [] => false
      | c :: rest => isRegexpSpace c && matchElems fuel (.wsStar :: es) rest
    | .wsStar =>
      matchElems fuel es s ||
        (match s with
         | [] => false
         | c :: rest => isRegexpSpace c && matchElems fuel (.wsStar :: es) rest)

/-- Unanchored search, as `Regexp.MatchString`: try a match at every start
position. -/
def matchesAt (p : List PatElem) : List Char → Bool
  | [] => matchElems 32 p []
  | s@(_ :: rest) => matchElems (s.length + 32) p s || matchesAt p rest

/-- The eight `promptInjectionPatterns` of sanitize.go, with `(?i)` realised by
matching lowercase literals against the pre-lowercased input, and `x?` /
alternation groups expanded into literal alternations. -/
def promptInjectionPatterns : List (List PatElem) :=
  let who : PatElem := .alts ["previous".toList, "above".toList, "all".toList, "prior".toList]
  let what : PatElem := .alts ["instructions".toList, "instruction".toList,
    "prompts".toList, "prompt".toList, "rules".toList, "rule".toList]
  [ [.lit ("ignore".toList), .wsPlus, who, .wsPlus, what],
    [.lit ("disregard".toList), .wsPlus, who, .wsPlus, what],
    [.lit ("forget".toList), .wsPlus, who, .wsPlus, what],
    [.lit ("you".toList), .wsPlus, .lit ("are".toList), .wsPlus,
      .alts ["now".toList, "actually".toList], .wsPlus, .lit ("a".toList)],
    [.lit ("new".toList), .wsPlus, .alts ["instructions:".toList, "instruction:".toList]],
    [.lit ("system".toList), .wsStar, .lit (":".toList), .wsStar],
    [.lit ("override".toList), .wsPlus, who],
    [.lit ("act".toList), .wsPlus, .lit ("as".toList), .wsPlus, .lit ("if".toList),
      .wsPlus, .lit ("you".toList), .wsPlus, .lit ("are".toList)] ]

/-- Go `strings.ToLower`, modelled on the ASCII range (every input relevant to
the claims is ASCII). -/
def goToLower (c : Char) : Char := c.toLower

/-- Go `unicode.IsLetter(r) || unicode.IsDigit(r)`, modelled on the ASCII
range. -/
def isAlnumGo (c : Char) : Bool := c.isAlpha || c.isDigit

/-- Lookup in the association list modelling Go's `map[rune]int` (missing key
reads as zero). -/
def lookupCount (counts : List (Char × Nat)) (c : Char) : Nat :=
  match counts with
  | [] => 0
  | (d, n) :: rest => if d = c then n else lookupCount rest c

/-- Increment of a key in the association list modelling Go's `map[rune]int`. -/
def bumpCount (counts : List (Char × Nat)) (c : Char) : List (Char × Nat) :=
  match counts with
  | [] => [(c, 1)]
  | (d, n) :: rest => if d = c then (d, n + 1) :: rest else (d, n) :: bumpCount rest c

/-- First loop of `hasExcessiveRepetition`: count alphanumeric runes and
return true as soon as one count exceeds 50. -/
def charRepeatLoop (counts : List (Char × Nat)) : List Char → Bool
  | [] => false
  | c :: rest =>
    if isAlnumGo c then
      let counts' := bumpCount counts c
      if 50 < lookupCount counts' c then true else charRepeatLoop counts' rest
    else charRepeatLoop counts rest

/-- Accumulator-based splitter for Go `strings.Fields`: maximal runs of
non-whitespace characters. -/
def fieldsAux (acc : List Char) : List Char → List (List Char)
  | [] => if acc = [] then [] else [acc.reverse]
  | c :: rest =>
    if isGoSpace c then
      if acc = [] then fieldsAux [] rest else acc.reverse :: fieldsAux [] rest
    else fieldsAux (c :: acc) rest

/-- Go `strings.Fields`. -/
def fields (s : List Char) : List (List Char) :=
  fieldsAux [] s

/-- Increment of a key in the association list modelling Go's
`map[string]int`. -/
def bumpWordCount (counts : List (List Char × Nat)) (w : List Char) :
    List (List Char × Nat) :=
  match counts with
  | [] => [(w, 1)]
  | (v, n) :: rest => if v = w then (v, n + 1) :: rest else (v, n) :: bumpWordCount rest w

/-- Lookup in the association list modelling Go's `map[string]int`. -/
def lookupWordCount (counts : List (List Char × Nat)) (w : List Char) : Nat :=
  match counts with
  | [] => 0
  | (v, n) :: rest => if v = w then n else lookupWordCount rest w

/-- Second loop of `hasExcessiveRepetition`: count lowercased words and return
true as soon as one word exceeds 30% of the total word count.  The Go code
compares `float64(count)/float64(total) > 0.3`; for the word counts reachable
here this is the exact rational comparison `10*count > 3*total`, which is how
it is modelled. -/
def wordRepeatLoop (counts : List (List Char × Nat)) (total : Nat) :
    List (List Char) → Bool
  | [] => false
  | w :: rest =>
    let lw := w.map goToLower
    let counts' := bumpWordCount counts lw
    if 3 * total < 10 * lookupWordCount counts' lw then true
    else wordRepeatLoop counts' total rest

/-- Go `hasExcessiveRepetition` (sanitize.go lines 84-114). -/
def hasExcessiveRepetition (s : List Char) : Bool :=
  if s.length < 20 then false
  else if charRepeatLoop [] s then true
  else
    let words := fields s
    if 10 < words.length then wordRepeatLoop [] words.length words else false

/-- Go `DetectPromptInjection` (sanitize.go lines 51-67): lowercase the input,
try the eight patterns (returning true on the first match), then the
repetition heuristic. -/
def DetectPromptInjection (input : List Char) : Bool :=
  let lowerInput := input.map goToLower
  promptInjectionPatterns.any (fun p => matchesAt p lowerInput) ||
    hasExcessiveRepetition input

/-! ### Conversation validator (`ChatRequest.Validate`, rag.go lines 247-301) -/

/-- One entry of `ConversationHistory` (rag.go `ConversationMessage`). -/
structure ConversationMessage where
  type : List Char
  content : List Char
deriving DecidableEq, Repr

/-- The distinct error values `ChatRequest.Validate` can return.  Formatted
message strings of the Go errors are elided; the constructors are in
one-to-one correspondence with the `return` statements. -/
inductive ValidationErr where
  | emptyMessage
  | messageTooLong
  | promptInjection
  | invalidMessageType
  | historyInjection
  | historyMessageTooLong
  | historyTooLong
  | conversationTooLong
deriving DecidableEq, Repr

/-- Chat request body (rag.go `ChatRequest`). -/
structure ChatRequest where
  message : List Char
  conversationHistory : List ConversationMessage
deriving DecidableEq, Repr

/-- Step 5 of `Validate`: walk the history, mutating each entry in place
(type check, sanitize, injection check, length check) and accumulating token
counts; on failure the remaining entries are returned untouched, exactly as
the in-place Go loop leaves them. -/
def valLoop : List ConversationMessage → Nat →
    List ConversationMessage × Nat × Option ValidationErr
  | [], tok => ([], tok, none)
  | m :: rest, tok =>
    if m.type ≠ "user".toList ∧ m.type ≠ "assistant".toList then
      (m :: rest, tok, some .invalidMessageType)
    else
      let c := SanitizeInput m.content
      let m' : ConversationMessage := ⟨m.type, c⟩
      if DetectPromptInjection c then (m' :: rest, tok, some .historyInjection)
      else if 2000 < c.length then (m' :: rest, tok, some .historyMessageTooLong)
      else
        let r := valLoop rest (tok + countTokens c)
        (m' :: r.1, r.2.1, r.2.2)

/-- Go `(*ChatRequest).Validate`: the request is mutated in place and only an
error is returned, so the embedding returns the final request state together
with the outcome (`none` = `nil` error).  The message field is assigned its
sanitized value unconditionally at step 1; the history state and the outcome
depend on the path taken. -/
def ChatRequest.Validate (req : ChatRequest) : ChatRequest × Option ValidationErr :=
  let m := SanitizeInput req.message
  let res : List ConversationMessage × Option ValidationErr :=
    if m.length = 0 then (req.conversationHistory, some .emptyMessage)
    else if 1000 < m.length then (req.conversationHistory, some .messageTooLong)
    else if DetectPromptInjection m then (req.conversationHistory, some .promptInjection)
    else if 15 < req.conversationHistory.length then
      (req.conversationHistory, some .historyTooLong)
    else
      let r := valLoop req.conversationHistory (countTokens m)
      match r.2.2 with
      | some e => (r.1, some e)
      | none =>
        if 2500 < r.2.1 then (r.1, some .conversationTooLong)
        else (r.1, none)
  (⟨m, res.1⟩, res.2)

/-! ### Context truncation (`truncateToTokens`, rag.go lines 470-519) -/

/-- The truncation indicator appended by `truncateToTokens`. -/
def truncIndicator : List Char := "\n... (content truncated)".toList

/-- Midpoint computation of the `truncateToTokens` loop:
`mid := (low+high+1)/2`, clamped to `len(text)`. -/
def clampMid (text : List Char) (low high : Nat) : Nat :=
  let mid0 := (low + high + 1) / 2
  if text.length < mid0 then text.length else mid0

/-- The binary-search loop of `truncateToTokens`, returning the final `low`
(the Go loop keeps `result = text[:low]` as an invariant, since `result` and
`low` are always updated together and `low` starts at 0).  One unit of fuel
per iteration; the span `high - low` shrinks every iteration, so fuel
`text.length + 1` always completes the loop. -/
def truncLoopF (text : List Char) (maxTokens : Int) : Nat → Nat → Nat → Nat
  | 0, low, _ => low
  | fuel + 1, low, high =>
    if low < high then
      let mid := clampMid text low high
      if (countTokens (text.take mid) : Int) ≤ maxTokens then
        if high - mid < 10 then mid else truncLoopF text maxTokens fuel mid high
      else
        if mid - 1 - low < 10 then low else truncLoopF text maxTokens fuel low (mid - 1)
    else low

/-- The character prefix of `text` kept by `truncateToTokens` (before the
truncation indicator is appended). -/
def keptContext (text : List Char) (maxTokens : Int) : List Char :=
  if maxTokens ≤ 0 then []
  else if (countTokens text : Int) ≤ maxTokens then text
  else text.take (truncLoopF text maxTokens (text.length + 1) 0 text.length)

/-- Go `truncateToTokens`: returns the (possibly truncated) text and whether
truncation occurred.  The Go code also computes an unused `estimatedChars`
value (dead code), omitted here. -/
def truncateToTokens (text : List Char) (maxTokens : Int) : List Char × Bool :=
  if maxTokens ≤ 0 then ([], true)
  else if (countTokens text : Int) ≤ maxTokens then (text, false)
  else
    let result := keptContext text maxTokens
    (if result.length < text.length then result ++ truncIndicator else result, true)

/-! ### Prompt assembly (`buildPromptWithHistory`, rag.go lines 368-466) -/

/-- The fixed system prompt of `buildPromptWithHistory`. -/
def systemPrompt : List Char :=
  "You are a helpful Pokemon expert assistant. Answer questions based on the provided context about Pokemon.\n\n".toList

/-- The fixed instructions block of `buildPromptWithHistory` (the apostrophe
of the source text is spliced in as character 39). -/
def ragInstructions : List Char :=
  "\nInstructions:\n- Answer based on the context above and conversation history\n- Use conversation context to understand references (it, that Pokemon, etc.)\n- Be specific and accurate about Pokemon stats, types, and abilities\n- If comparing Pokemon, use specific numbers when available\n- If the context doesn".toList ++
  [Char.ofNat 39] ++
  "t contain the information, say so clearly\n- Keep your answer concise but informative\n\nAnswer:".toList

/-- Rendering of one history turn, `fmt.Sprintf("%s: %s\n", role, content)`
with role `Assistant` for type "assistant" and `Human` otherwise. -/
def msgText (m : ConversationMessage) : List Char :=
  (if m.type = "assistant".toList then "Assistant".toList else "Human".toList) ++
    ": ".toList ++ m.content ++ "\n".toList

/-- The history-fitting loop of `buildPromptWithHistory`, applied to the
reversed history (the Go loop walks indices from newest to oldest and
prepends accepted turns): returns the kept turns in chronological order, the
final `tokensUsed`, and the `historyTruncated` flag. -/
def fitHistory (mx : Int) : Int → List ConversationMessage →
    List ConversationMessage × Int × Bool
  | tok, [] => ([], tok, false)
  | tok, m :: rest =>
    let mt : Int := countTokens (msgText m)
    if mx < tok + mt then ([], tok, true)
    else
      let r := fitHistory mx (tok + mt) rest
      (r.1 ++ [m], r.2.1, r.2.2)

/-- Context-section header written by `buildPromptWithHistory`. -/
def ctxHeader (truncated : Bool) : List Char :=
  if truncated then "Context Information (truncated):\n\n".toList
  else "Context Information:\n\n".toList

/-- History-section header written by `buildPromptWithHistory`. -/
def historyHeader (truncated : Bool) : List Char :=
  if truncated then "=== Recent Conversation (earlier messages omitted) ===\n".toList
  else "=== Recent Conversation ===\n".toList

/-- The labeled current question, `fmt.Sprintf("Current Question: %s\n", question)`. -/
def questionWithLabel (question : List Char) : List Char :=
  "Current Question: ".toList ++ question ++ "\n".toList

/-- The effective budget: `s.config.RAG.MaxContextTokens`, with the 4000
default when the configured value is 0. -/
def effectiveMaxTokens (cfg : Int) : Int :=
  if cfg = 0 then 4000 else cfg

/-- Initial `tokensUsed` of `buildPromptWithHistory`: the token count of the
fixed components, counted as one concatenated string. -/
def fixedTokens (question : List Char) : Int :=
  countTokens (systemPrompt ++ questionWithLabel question ++ ragInstructions)

/-- `remainingTokens := maxContextTokens - tokensUsed`, clamped at zero. -/
def remainingTokens (mx used : Int) : Int :=
  if mx - used < 0 then 0 else mx - used

/-- Go `buildPromptWithHistory`: fixed components are always included, recent
history is fitted newest-first against the budget, and the RAG context gets
whatever budget remains.  `cfgMaxContextTokens` is `s.config.RAG.MaxContextTokens`
(0 means the 4000 default). -/
def buildPromptWithHistory (cfgMaxContextTokens : Int) (ragContext question : List Char)
    (conversationHistory : List ConversationMessage) : List Char :=
  let maxContextTokens := effectiveMaxTokens cfgMaxContextTokens
  let fh := fitHistory maxContextTokens (fixedTokens question) conversationHistory.reverse
  let tr := truncateToTokens ragContext (remainingTokens maxContextTokens fh.2.1)
  systemPrompt ++
    (if tr.1 ≠ [] then ctxHeader tr.2 ++ tr.1 ++ "\n".toList else []) ++
    (if fh.1 ≠ [] then historyHeader fh.2.2 ++ (fh.1.map msgText).flatten ++ "\n".toList else []) ++
    questionWithLabel question ++ ragInstructions

/-! ### Helper lemmas -/

/-- Bumping a key increments exactly that key's count. -/
theorem lookupCount_bumpCount_same (counts : List (Char × Nat)) (c : Char) :
    lookupCount (bumpCount counts c) c = lookupCount counts c + 1 := by
  induction counts with
  | nil => simp [bumpCount, lookupCount]
  | cons p rest ih =>
    obtain ⟨d, n⟩ := p
    by_cases h : d = c
    · simp [bumpCount, lookupCount, h]
    · simp [bumpCount, lookupCount, h, ih]

/-- Bumping one key leaves other keys' counts unchanged. -/
theorem lookupCount_bumpCount_other (counts : List (Char × Nat)) {c d : Char}
    (h : d ≠ c) : lookupCount (bumpCount counts d) c = lookupCount counts c := by
  induction counts with
  | nil => simp [bumpCount, lookupCount, h]
  | cons p rest ih =>
    obtain ⟨e, n⟩ := p
    by_cases he : e = d
    · subst he
      simp [bumpCount, lookupCount, h]
    · simp [bumpCount, lookupCount, he, ih]

/-- If some alphanumeric character still owes enough occurrences to push its
running count past 50, the character-repetition loop reports true. -/
theorem charRepeatLoop_true {c : Char} (halnum : isAlnumGo c = true) :
    ∀ (s : List Char) (counts : List (Char × Nat)),
      lookupCount counts c ≤ 50 → 51 ≤ lookupCount counts c + s.count c →
      charRepeatLoop counts s = true := by
  intro s
  induction s with
  | nil => intro counts h1 h2; simp at h2; omega
  | cons d rest ih =>
    intro counts h1 h2
    by_cases hd : isAlnumGo d = true
    · rw [charRepeatLoop, if_pos hd]
      by_cases hover : 50 < lookupCount (bumpCount counts d) d
      · simp [hover]
      · rw [if_neg hover]
        by_cases hdc : d = c
        · subst hdc
          refine ih (bumpCount counts d) (by omega) ?_
          rw [lookupCount_bumpCount_same]
          rw [List.count_cons_self] at h2
          omega
        · refine ih (bumpCount counts d) ?_ ?_
          · rw [lookupCount_bumpCount_other counts hdc]; exact h1
          · rw [lookupCount_bumpCount_other counts hdc]
            rw [List.count_cons_of_ne (by simpa using Ne.symm hdc)] at h2
            exact h2
    · rw [charRepeatLoop, if_neg hd]
      have hdc : d ≠ c := fun h => hd (h ▸ halnum)
      refine ih counts h1 ?_
      rw [List.count_cons_of_ne (by simpa using Ne.symm hdc)] at h2
      exact h2

/-- The count of an element never exceeds the list length. -/
theorem count_le_len (s : List Char) (c : Char) : s.count c ≤ s.length :=
  List.count_le_length c s

/-- Characters of the trimmed string come from the original. -/
theorem mem_trimSpace {c : Char} {s : List Char} (h : c ∈ trimSpace s) : c ∈ s := by
  unfold trimSpace at h
  rw [List.mem_reverse] at h
  have h2 : c ∈ (s.dropWhile isGoSpace).reverse :=
    List.Sublist.mem h (List.dropWhile_sublist _)
  rw [List.mem_reverse] at h2
  exact List.Sublist.mem h2 (List.dropWhile_sublist _)

/-- A character produced by `escapeChar` is the original character or a
printable character of one of the entity replacements. -/
theorem escapeChar_ctl {d c : Char} (h : c ∈ escapeChar d) :
    c = d ∨ isC0OrDel c = false := by
  unfold escapeChar at h
  split_ifs at h
  · exact Or.inr ((by decide : ∀ x ∈ "&amp;".toList, isC0OrDel x = false) c h)
  · exact Or.inr ((by decide : ∀ x ∈ "&#39;".toList, isC0OrDel x = false) c h)
  · exact Or.inr ((by decide : ∀ x ∈ "&lt;".toList, isC0OrDel x = false) c h)
  · exact Or.inr ((by decide : ∀ x ∈ "&gt;".toList, isC0OrDel x = false) c h)
  · exact Or.inr ((by decide : ∀ x ∈ "&#34;".toList, isC0OrDel x = false) c h)
  · exact Or.inl (by simpa using h)

/-- Characters of the whitespace-collapsed string are the inserted single
spaces or original non-space-or-tab characters. -/
theorem mem_nwAux {c : Char} : ∀ (b : Bool) (s : List Char), c ∈ nwAux b s →
    c = ' ' ∨ (c ∈ s ∧ isSpaceOrTab c = false) := by
  intro b s
  induction s generalizing b with
  | nil => intro h; simp [nwAux] at h
  | cons d rest ih =>
    intro h
    simp only [nwAux] at h
    by_cases hd : isSpaceOrTab d = true
    · rw [if_pos hd] at h
      cases b with
      | true =>
        rcases ih true (by simpa using h) with h' | ⟨h1, h2⟩
        · exact Or.inl h'
        · exact Or.inr ⟨List.mem_cons_of_mem d h1, h2⟩
      | false =>
        rcases List.mem_cons.mp (by simpa using h) with rfl | h'
        · exact Or.inl rfl
        · rcases ih true h' with h'' | ⟨h1, h2⟩
          · exact Or.inl h''
          · exact Or.inr ⟨List.mem_cons_of_mem d h1, h2⟩
    · rw [if_neg hd] at h
      rcases List.mem_cons.mp h with rfl | h'
      · exact Or.inr ⟨List.mem_cons_self _ _, by simpa using hd⟩
      · rcases ih false h' with h'' | ⟨h1, h2⟩
        · exact Or.inl h''
        · exact Or.inr ⟨List.mem_cons_of_mem d h1, h2⟩

/-- Characters after literal replacement come from the replacement or the
input. -/
theorem mem_replaceAllF {c : Char} (pat rep : List Char) :
    ∀ (fuel : Nat) (s : List Char), c ∈ replaceAllF pat rep fuel s →
      c ∈ rep ∨ c ∈ s := by
  intro fuel
  induction fuel with
  | zero => intro s h; exact Or.inr h
  | succ fuel ih =>
    intro s h
    cases s with
    | nil => simp [replaceAllF] at h
    | cons d rest =>
      simp only [replaceAllF] at h
      split_ifs at h with hp
      · rcases List.mem_append.mp h with h' | h'
        · exact Or.inl h'
        · rcases ih _ h' with h'' | h''
          · exact Or.inl h''
          · exact Or.inr (List.mem_cons_of_mem d (List.mem_of_mem_drop h''))
      · rcases List.mem_cons.mp h with rfl | h'
        · exact Or.inr (List.mem_cons_self _ _)
        · rcases ih _ h' with h'' | h''
          · exact Or.inl h''
          · exact Or.inr (List.mem_cons_of_mem d h'')

/-- A C0-or-DEL character that is neither in the removed class nor a space or
tab must be newline or carriage return. -/
theorem ctl_resolve (c : Char) (h1 : isC0OrDel c = true)
    (h2 : isRemovedControl c = false) (h3 : isSpaceOrTab c = false) :
    c = '\n' ∨ c = '\r' := by
  have hchar := (Char.ofNat_toNat c).symm
  have hv : c.toNat = 9 ∨ c.toNat = 10 ∨ c.toNat = 13 := by
    simp [isC0OrDel] at h1
    simp [isRemovedControl] at h2
    omega
  rcases hv with h | h | h
  · exfalso
    rw [h] at hchar
    rw [hchar] at h3
    exact absurd h3 (by decide)
  · left
    rw [h] at hchar
    rw [hchar]
  · right
    rw [h] at hchar
    rw [hchar]

/-! ### Claims -/

/-- C3 (code bug evidence): the newline-capping step is ineffective.  On the
input `a` + four newlines + `b`, `SanitizeInput` returns its input unchanged —
a run of four consecutive newlines survives — and `limitConsecutiveNewlines`
itself leaves the run intact, because its regexp source `\n{` + `strings.Repeat("", max)`
+ `,}` degenerates to the literal pattern `\n{,}`. -/
theorem newline_cap_ineffective :
    SanitizeInput ("a\n\n\n\nb".toList) = "a\n\n\n\nb".toList ∧
    limitConsecutiveNewlines ("a\n\n\n\nb".toList) 3 = "a\n\n\n\nb".toList := by
  exact ⟨by decide, by decide⟩

/-- C4 (counterexample): in fallback mode the token estimator is not
`ceil(length/4)`: on the one-character text it returns `1/4 = 0`, while
`ceil(1/4) = (1+3)/4 = 1`. -/
theorem countTokens_not_ceil :
    countTokens ("a".toList) ≠ ("a".toList.length + 3) / 4 := by decide

/-- C4 (amended): in fallback mode the token estimator returns the
nonnegative integer `floor(length/4)`; this agrees with the claimed
`ceil(length/4)` exactly when the length is a multiple of 4. -/
theorem countTokens_floor (s : List Char) :
    countTokens s = s.length / 4 ∧
    (countTokens s = (s.length + 3) / 4 ↔ s.length % 4 = 0) := by
  refine ⟨rfl, ?_⟩
  unfold countTokens
  omega

/-- C2 (counterexample): the sanitizer is not idempotent.  `SanitizeInput "<"`
is `"&lt;"`, and sanitizing again HTML-escapes the ampersand to
`"&amp;lt;"`. -/
theorem sanitize_not_idempotent :
    SanitizeInput (SanitizeInput ("<".toList)) ≠ SanitizeInput ("<".toList) := by decide

/-- C7: any text in which a single alphanumeric character occurs at least 51
times is flagged by `DetectPromptInjection` (via the repetition heuristic of
`hasExcessiveRepetition`). -/
theorem repeated_char_detected (s : List Char) (c : Char)
    (halnum : isAlnumGo c = true) (hcount : 51 ≤ s.count c) :
    DetectPromptInjection s = true := by
  have hlen : 51 ≤ s.length := le_trans hcount (count_le_len s c)
  have hrep : hasExcessiveRepetition s = true := by
    unfold hasExcessiveRepetition
    rw [if_neg (by omega)]
    rw [charRepeatLoop_true halnum s [] (by simp [lookupCount]) (by simpa [lookupCount])]
    simp
  unfold DetectPromptInjection
  simp [hrep]

/-- C7 witness: 51 repetitions of the letter `a` are flagged. -/
theorem repeated_char_detected_witness :
    isAlnumGo 'a' = true ∧ 51 ≤ (List.replicate 51 'a').count 'a' ∧
    DetectPromptInjection (List.replicate 51 'a') = true :=
  ⟨by decide, by decide, repeated_char_detected (List.replicate 51 'a') 'a' (by decide) (by decide)⟩

/-- When every history entry passes its per-turn checks, the history loop
succeeds and accumulates the token counts of the sanitized contents. -/
theorem valLoop_ok (hist : List ConversationMessage) (tok : Nat)
    (htype : ∀ m ∈ hist, m.type = "user".toList ∨ m.type = "assistant".toList)
    (hinj : ∀ m ∈ hist, DetectPromptInjection (SanitizeInput m.content) = false)
    (hlen : ∀ m ∈ hist, (SanitizeInput m.content).length ≤ 2000) :
    (valLoop hist tok).2.2 = none ∧
    (valLoop hist tok).2.1 =
      tok + (hist.map (fun m => countTokens (SanitizeInput m.content))).sum := by
  induction hist generalizing tok with
  | nil => simp [valLoop]
  | cons m rest ih =>
    have h1 : ¬(m.type ≠ "user".toList ∧ m.type ≠ "assistant".toList) := by
      rcases htype m (by simp) with h | h <;> simp [h]
    have h2 : ¬(DetectPromptInjection (SanitizeInput m.content) = true) := by
      simp [hinj m (by simp)]
    have h3 : ¬(2000 < (SanitizeInput m.content).length) := by
      have := hlen m (by simp)
      omega
    simp only [valLoop]
    rw [if_neg h1, if_neg h2, if_neg h3]
    obtain ⟨ha, hb⟩ := ih (tok + countTokens (SanitizeInput m.content))
      (fun x hx => htype x (by simp [hx])) (fun x hx => hinj x (by simp [hx]))
      (fun x hx => hlen x (by simp [hx]))
    refine ⟨ha, ?_⟩
    show (valLoop rest (tok + countTokens (SanitizeInput m.content))).2.1 = _
    rw [hb, List.map_cons, List.sum_cons]
    omega

/-- C6: when the message passes steps 1-3 and the history exceeds 15 entries,
`Validate` rejects with the history-length error, short-circuiting before the
per-turn loop and before the token-budget check — so `ConversationTooLong`
cannot be returned in that situation. -/
theorem history_too_long_short_circuits (req : ChatRequest)
    (h1 : SanitizeInput req.message ≠ [])
    (h2 : (SanitizeInput req.message).length ≤ 1000)
    (h3 : DetectPromptInjection (SanitizeInput req.message) = false)
    (h4 : 15 < req.conversationHistory.length) :
    (ChatRequest.Validate req).2 = some .historyTooLong ∧
    (ChatRequest.Validate req).2 ≠ some .conversationTooLong := by
  have hm0 : ¬((SanitizeInput req.message).length = 0) := by
    simpa [List.length_eq_zero] using h1
  have hm1 : ¬(1000 < (SanitizeInput req.message).length) := by omega
  have hm2 : ¬(DetectPromptInjection (SanitizeInput req.message) = true) := by
    simp [h3]
  have key : (ChatRequest.Validate req).2 = some .historyTooLong := by
    simp only [ChatRequest.Validate]
    rw [if_neg hm0, if_neg hm1, if_neg hm2, if_pos h4]
  simp [key]

/-- C6 witness: 16 one-character user turns with a harmless message. -/
theorem history_too_long_short_circuits_witness :
    (ChatRequest.Validate
        ⟨"hello".toList, List.replicate 16 ⟨"user".toList, "x".toList⟩⟩).2 =
      some .historyTooLong :=
  (history_too_long_short_circuits
      ⟨"hello".toList, List.replicate 16 ⟨"user".toList, "x".toList⟩⟩
      (by decide) (by decide) (by decide) (by decide)).1

/-- C5: the message-length boundary is inclusive — a request whose sanitized
message has exactly 1000 characters and passes the other checks is accepted,
while a sanitized message of 1001 characters is rejected with
`MessageTooLong` (regardless of any later check). -/
theorem message_length_boundary (r r' : ChatRequest)
    (h1 : (SanitizeInput r.message).length = 1000)
    (h2 : DetectPromptInjection (SanitizeInput r.message) = false)
    (h3 : r.conversationHistory.length ≤ 15)
    (h4 : ∀ m ∈ r.conversationHistory,
      m.type = "user".toList ∨ m.type = "assistant".toList)
    (h5 : ∀ m ∈ r.conversationHistory,
      DetectPromptInjection (SanitizeInput m.content) = false)
    (h6 : ∀ m ∈ r.conversationHistory, (SanitizeInput m.content).length ≤ 2000)
    (h7 : countTokens (SanitizeInput r.message) +
        (r.conversationHistory.map (fun m => countTokens (SanitizeInput m.content))).sum ≤ 2500)
    (h8 : (SanitizeInput r'.message).length = 1001) :
    (ChatRequest.Validate r).2 = none ∧
    (ChatRequest.Validate r').2 = some .messageTooLong := by
  constructor
  · have hm0 : ¬((SanitizeInput r.message).length = 0) := by omega
    have hm1 : ¬(1000 < (SanitizeInput r.message).length) := by omega
    have hm2 : ¬(DetectPromptInjection (SanitizeInput r.message) = true) := by
      simp [h2]
    have hm4 : ¬(15 < r.conversationHistory.length) := by omega
    obtain ⟨ha, hb⟩ :=
      valLoop_ok r.conversationHistory (countTokens (SanitizeInput r.message)) h4 h5 h6
    have hm5 : ¬(2500 <
        (valLoop r.conversationHistory (countTokens (SanitizeInput r.message))).2.1) := by
      rw [hb]; omega
    simp only [ChatRequest.Validate]
    rw [if_neg hm0, if_neg hm1, if_neg hm2, if_neg hm4]
    simp only [ha, hm5, if_neg, if_false]
  · have hm0 : ¬((SanitizeInput r'.message).length = 0) := by omega
    have hm1 : 1000 < (SanitizeInput r'.message).length := by omega
    simp only [ChatRequest.Validate]
    rw [if_neg hm0, if_pos hm1]

/-- Concrete boundary message: 20 distinct letters, 50 repetitions each —
1000 characters, sanitize-invariant, and under every repetition threshold. -/
def msg1000 : List Char :=
  ("abcdefghijklmnopqrst".toList.map (fun c => List.replicate 50 c)).flatten

/-- C5 witness: the 1000-character message is accepted, the same message with
one extra letter is rejected as too long. -/
theorem message_length_boundary_witness :
    (ChatRequest.Validate ⟨msg1000, []⟩).2 = none ∧
    (ChatRequest.Validate ⟨msg1000 ++ ['u'], []⟩).2 = some .messageTooLong :=
  message_length_boundary ⟨msg1000, []⟩ ⟨msg1000 ++ ['u'], []⟩
    (by decide) (by decide) (by decide) (by simp) (by simp) (by simp)
    (by decide) (by decide)

/-- C8 (counterexample): the validator can reject with the history still
unsanitized.  An empty message rejects at step 2, before the history loop, so
the history entry keeps its raw content `"<"`, which is not sanitize-fixed. -/
theorem validate_partial_sanitization :
    (ChatRequest.Validate ⟨[], [⟨"user".toList, "<".toList⟩]⟩).1.conversationHistory =
      [⟨"user".toList, "<".toList⟩] ∧
    SanitizeInput ("<".toList) ≠ "<".toList := by
  exact ⟨by decide, by decide⟩

/-- On the success path (`none` outcome) the history loop has sanitized every
entry's content in place. -/
theorem valLoop_none_history (hist : List ConversationMessage) (tok : Nat)
    (h : (valLoop hist tok).2.2 = none) :
    (valLoop hist tok).1 =
      hist.map (fun m => ⟨m.type, SanitizeInput m.content⟩) := by
  induction hist generalizing tok with
  | nil => simp [valLoop]
  | cons m rest ih =>
    simp only [valLoop] at h ⊢
    by_cases h1 : m.type ≠ "user".toList ∧ m.type ≠ "assistant".toList
    · rw [if_pos h1] at h
      simp at h
    · rw [if_neg h1] at h ⊢
      by_cases h2 : DetectPromptInjection (SanitizeInput m.content) = true
      · rw [if_pos h2] at h
        simp at h
      · rw [if_neg h2] at h ⊢
        by_cases h3 : 2000 < (SanitizeInput m.content).length
        · rw [if_pos h3] at h
          simp at h
        · rw [if_neg h3] at h ⊢
          rw [List.map_cons]
          exact congrArg _ (ih _ h)

/-- C8 (amended): the message itself is sanitized before any result is
returned — on every path, accepting or rejecting, the returned request
carries `SanitizeInput` of the original message (Go performs the assignment
before any check can fail) — and on the accepting path the whole history is
sanitized too.  Rejecting paths may leave history entries at and after the
failure point unsanitized (see the counterexample). -/
theorem validate_sanitization_extent (req : ChatRequest) :
    (ChatRequest.Validate req).1.message = SanitizeInput req.message ∧
    ((ChatRequest.Validate req).2 = none →
      (ChatRequest.Validate req).1.conversationHistory =
        req.conversationHistory.map (fun m => ⟨m.type, SanitizeInput m.content⟩)) := by
  refine ⟨rfl, ?_⟩
  intro h
  unfold ChatRequest.Validate at h ⊢
  by_cases h1 : (SanitizeInput req.message).length = 0
  · simp [h1] at h
  by_cases h2 : 1000 < (SanitizeInput req.message).length
  · simp [h1, h2] at h
  by_cases h3 : DetectPromptInjection (SanitizeInput req.message) = true
  · simp [h1, h2, h3] at h
  by_cases h4 : 15 < req.conversationHistory.length
  · simp [h1, h2, h3, h4] at h
  rcases he : (valLoop req.conversationHistory (countTokens (SanitizeInput req.message))).2.2 with _ | e
  · by_cases h5 : 2500 <
        (valLoop req.conversationHistory (countTokens (SanitizeInput req.message))).2.1
    · simp [h1, h2, h3, h4, he, h5] at h
    · simp only [h1, h2, h3, h4, he, h5, Bool.false_eq_true, if_false, if_neg]
      exact valLoop_none_history _ _ he
  · simp [h1, h2, h3, h4, he] at h

/-- C8 amended-claim witness: a concrete accepted request comes back with the
message and every history entry sanitized. -/
theorem validate_sanitization_extent_witness :
    (ChatRequest.Validate ⟨" hi <b> ".toList, [⟨"user".toList, " ok <i> ".toList⟩]⟩).1.message =
      SanitizeInput (" hi <b> ".toList) ∧
    (ChatRequest.Validate ⟨" hi <b> ".toList, [⟨"user".toList, " ok <i> ".toList⟩]⟩).1.conversationHistory =
      [⟨"user".toList, SanitizeInput (" ok <i> ".toList)⟩] :=
  ⟨(validate_sanitization_extent _).1,
    (validate_sanitization_extent ⟨" hi <b> ".toList, [⟨"user".toList, " ok <i> ".toList⟩]⟩).2 (by decide)⟩

/-- Bounds for the clamped midpoint while the loop invariant
`low < high ≤ len(text)` holds. -/
theorem clampMid_bounds (text : List Char) (low high : Nat) (hlh : low < high)
    (hhigh : high ≤ text.length) :
    low < clampMid text low high ∧ clampMid text low high ≤ high ∧
      clampMid text low high ≤ text.length := by
  simp only [clampMid]
  split <;> omega

/-- The binary-search loop only ever moves `low` to midpoints whose prefix
fits the budget, so the returned cut point keeps the prefix within budget. -/
theorem truncLoopF_fits (text : List Char) (m : Int) :
    ∀ (fuel low high : Nat), (countTokens (text.take low) : Int) ≤ m →
      (countTokens (text.take (truncLoopF text m fuel low high)) : Int) ≤ m := by
  intro fuel
  induction fuel with
  | zero => intro low high h; simpa [truncLoopF] using h
  | succ fuel ih =>
    intro low high h
    rw [truncLoopF]
    by_cases hlh : low < high
    · rw [if_pos hlh]
      by_cases hfit : (countTokens (text.take (clampMid text low high)) : Int) ≤ m
      · rw [if_pos hfit]
        by_cases hbrk : high - clampMid text low high < 10
        · rwa [if_pos hbrk]
        · rw [if_neg hbrk]; exact ih _ _ hfit
      · rw [if_neg hfit]
        by_cases hbrk : clampMid text low high - 1 - low < 10
        · rwa [if_pos hbrk]
        · rw [if_neg hbrk]; exact ih _ _ h
    · rwa [if_neg hlh]

/-- The binary-search loop never returns less than the current `low`. -/
theorem truncLoopF_ge (text : List Char) (m : Int) :
    ∀ (fuel low high : Nat), high ≤ text.length →
      low ≤ truncLoopF text m fuel low high := by
  intro fuel
  induction fuel with
  | zero => intro low high _; simp [truncLoopF]
  | succ fuel ih =>
    intro low high hhigh
    rw [truncLoopF]
    by_cases hlh : low < high
    · rw [if_pos hlh]
      obtain ⟨hm1, hm2, _⟩ := clampMid_bounds text low high hlh hhigh
      by_cases hfit : (countTokens (text.take (clampMid text low high)) : Int) ≤ m
      · rw [if_pos hfit]
        by_cases hbrk : high - clampMid text low high < 10
        · rw [if_pos hbrk]; omega
        · rw [if_neg hbrk]
          exact le_trans (le_of_lt hm1) (ih _ high hhigh)
      · rw [if_neg hfit]
        by_cases hbrk : clampMid text low high - 1 - low < 10
        · rw [if_pos hbrk]
        · rw [if_neg hbrk]; exact ih low _ (by omega)
    · rw [if_neg hlh]

/-- A strictly smaller token count of a prefix forces a strictly smaller cut
point, as long as the larger cut is within the text. -/
theorem cut_lt_of_tokens_lt (text : List Char) (a b : Nat) (hb : b ≤ text.length)
    (h : countTokens (text.take a) < countTokens (text.take b)) : a < b := by
  simp only [countTokens, List.length_take] at h
  omega

/-- Monotonicity of the binary-search loop in the token budget, for equal
start states satisfying the loop invariants. -/
theorem truncLoopF_mono (text : List Char) (m1 m2 : Int) (hm : m1 ≤ m2) :
    ∀ (fuel low high : Nat), high ≤ text.length →
      (countTokens (text.take low) : Int) ≤ m1 →
      truncLoopF text m1 fuel low high ≤ truncLoopF text m2 fuel low high := by
  intro fuel
  induction fuel with
  | zero => intro low high _ _; simp [truncLoopF]
  | succ fuel ih =>
    intro low high hhigh hlow
    rw [truncLoopF, truncLoopF]
    by_cases hlh : low < high
    · rw [if_pos hlh, if_pos hlh]
      obtain ⟨hm1b, hm2b, hm3b⟩ := clampMid_bounds text low high hlh hhigh
      by_cases hfit1 : (countTokens (text.take (clampMid text low high)) : Int) ≤ m1
      · have hfit2 : (countTokens (text.take (clampMid text low high)) : Int) ≤ m2 :=
          le_trans hfit1 hm
        rw [if_pos hfit1, if_pos hfit2]
        by_cases hbrk : high - clampMid text low high < 10
        · rw [if_pos hbrk, if_pos hbrk]
        · rw [if_neg hbrk, if_neg hbrk]
          exact ih _ high hhigh hfit1
      · by_cases hfit2 : (countTokens (text.take (clampMid text low high)) : Int) ≤ m2
        · -- the two runs diverge here: run 1 stays below `mid`, run 2 at or above
          rw [if_neg hfit1, if_pos hfit2]
          have hr1 : ∀ r1 : Nat, (countTokens (text.take r1) : Int) ≤ m1 →
              r1 < clampMid text low high := by
            intro r1 h1
            refine cut_lt_of_tokens_lt text r1 _ hm3b ?_
            have : (countTokens (text.take r1) : Int) <
                countTokens (text.take (clampMid text low high)) :=
              lt_of_le_of_lt h1 (by omega)
            exact_mod_cast this
          have run1 : ∀ x : Nat,
              (if clampMid text low high - 1 - low < 10 then low
                else truncLoopF text m1 fuel low (clampMid text low high - 1)) = x →
              x < clampMid text low high := by
            intro x hx
            by_cases hbrk : clampMid text low high - 1 - low < 10
            · rw [if_pos hbrk] at hx
              exact hx ▸ hr1 low hlow
            · rw [if_neg hbrk] at hx
              exact hx ▸ hr1 _ (truncLoopF_fits text m1 fuel low _ hlow)
          have run2 : clampMid text low high ≤
              (if high - clampMid text low high < 10 then clampMid text low high
                else truncLoopF text m2 fuel (clampMid text low high) high) := by
            by_cases hbrk : high - clampMid text low high < 10
            · rw [if_pos hbrk]
            · rw [if_neg hbrk]
              exact truncLoopF_ge text m2 fuel _ high hhigh
          exact le_trans (le_of_lt (run1 _ rfl)) run2
        · rw [if_neg hfit1, if_neg hfit2]
          by_cases hbrk : clampMid text low high - 1 - low < 10
          · rw [if_pos hbrk, if_pos hbrk]
          · rw [if_neg hbrk, if_neg hbrk]
            exact ih low _ (by omega) hlow
    · rw [if_neg hlh, if_neg hlh]

/-- C9: context truncation is monotonic in the budget — the kept character
prefix can only grow when the budget grows — and the string returned by
`truncateToTokens` is exactly that kept prefix, possibly followed by the
truncation indicator. -/
theorem truncation_monotone (text : List Char) (b1 b2 : Int) (hb : b1 ≤ b2) :
    (keptContext text b1).length ≤ (keptContext text b2).length ∧
    ((truncateToTokens text b1).1 = keptContext text b1 ∨
      (truncateToTokens text b1).1 = keptContext text b1 ++ truncIndicator) := by
  constructor
  · by_cases hb1 : b1 ≤ 0
    · simp [keptContext, hb1]
    · by_cases hfull1 : (countTokens text : Int) ≤ b1
      · have hb2 : ¬(b2 ≤ 0) := by omega
        have hfull2 : (countTokens text : Int) ≤ b2 := le_trans hfull1 hb
        simp [keptContext, hb1, hfull1, hb2, hfull2]
      · rw [keptContext, if_neg hb1, if_neg hfull1]
        by_cases hfull2 : (countTokens text : Int) ≤ b2
        · have hb2 : ¬(b2 ≤ 0) := by omega
          rw [keptContext, if_neg hb2, if_pos hfull2]
          simp only [List.length_take]
          omega
        · have hb2 : ¬(b2 ≤ 0) := by omega
          rw [keptContext, if_neg hb2, if_neg hfull2]
          have hmono := truncLoopF_mono text b1 b2 hb (text.length + 1) 0 text.length
            (le_refl _) (by simp [countTokens]; omega)
          simp only [List.length_take]
          omega
  · unfold truncateToTokens keptContext
    by_cases hb1 : b1 ≤ 0
    · simp [hb1]
    · by_cases hfull1 : (countTokens text : Int) ≤ b1
      · simp [hb1, hfull1]
      · rw [if_neg hb1, if_neg hfull1, if_neg hb1, if_neg hfull1]
        by_cases hcut :
            (text.take (truncLoopF text b1 (text.length + 1) 0 text.length)).length <
              text.length
        · right
          simp only [if_pos hcut]
        · left
          simp only [if_neg hcut]

/-- The history-fitting loop never pushes `tokensUsed` past the budget: a
turn is only accepted while the running total stays within it. -/
theorem fitHistory_le (mx : Int) :
    ∀ (hist : List ConversationMessage) (tok : Int), tok ≤ mx →
      (fitHistory mx tok hist).2.1 ≤ mx := by
  intro hist
  induction hist with
  | nil => intro tok h; simpa [fitHistory] using h
  | cons m rest ih =>
    intro tok h
    simp only [fitHistory]
    by_cases hover : mx < tok + (countTokens (msgText m) : Int)
    · rw [if_pos hover]
      exact h
    · rw [if_neg hover]
      exact ih (tok + countTokens (msgText m)) (by omega)

/-- The kept context prefix fits any nonnegative budget. -/
theorem keptContext_tokens_le (text : List Char) (m : Int) (hm : 0 ≤ m) :
    (countTokens (keptContext text m) : Int) ≤ m := by
  unfold keptContext
  by_cases h0 : m ≤ 0
  · rw [if_pos h0]
    simpa [countTokens] using hm
  · rw [if_neg h0]
    by_cases hfull : (countTokens text : Int) ≤ m
    · rwa [if_pos hfull]
    · rw [if_neg hfull]
      refine truncLoopF_fits text m _ 0 _ ?_
      simp [countTokens]
      omega

/-- C1 (counterexample): with the positive budget 1, empty retrieved context,
empty history and the one-character question `q`, the token count of the
string returned by `buildPromptWithHistory` exceeds the budget — the fixed
components are always included and are never truncated, and the uncounted
section headers make it worse on other inputs. -/
theorem prompt_exceeds_budget :
    1 < (countTokens (buildPromptWithHistory 1 [] ("q".toList) []) : Int) := by decide

/-- C1 (amended): the assembler never errors (it is a total function built
from total pieces), and the token counts it *tracks* respect the budget:
whenever the budget covers the fixed components, the final `tokensUsed`
(fixed components plus every kept history turn) plus the token count of the
kept context prefix stays within the budget.  The assembled string itself can
still exceed the budget (see the counterexample) because the section headers,
separator newlines, the truncation indicator and — for budgets below the
fixed-component cost — the always-included fixed components are not counted. -/
theorem prompt_counted_tokens_le (cfg : Int) (ragContext question : List Char)
    (history : List ConversationMessage)
    (hfix : fixedTokens question ≤ effectiveMaxTokens cfg) :
    (fitHistory (effectiveMaxTokens cfg) (fixedTokens question) history.reverse).2.1 +
      (countTokens (keptContext ragContext
        (remainingTokens (effectiveMaxTokens cfg)
          (fitHistory (effectiveMaxTokens cfg) (fixedTokens question)
            history.reverse).2.1)) : Int) ≤
      effectiveMaxTokens cfg := by
  have h1 : (fitHistory (effectiveMaxTokens cfg) (fixedTokens question)
      history.reverse).2.1 ≤ effectiveMaxTokens cfg :=
    fitHistory_le _ _ _ hfix
  have h2 : 0 ≤ remainingTokens (effectiveMaxTokens cfg)
      (fitHistory (effectiveMaxTokens cfg) (fixedTokens question) history.reverse).2.1 := by
    unfold remainingTokens
    split <;> omega
  have h3 := keptContext_tokens_le ragContext _ h2
  unfold remainingTokens at h3 ⊢
  have hneg : ¬(effectiveMaxTokens cfg -
      (fitHistory (effectiveMaxTokens cfg) (fixedTokens question)
        history.reverse).2.1 < 0) := by omega
  rw [if_neg hneg] at h3 ⊢
  omega

/-- C1 amended-claim witness: at the default budget the tracked totals stay
within budget for a concrete request. -/
theorem prompt_counted_tokens_le_witness :
    (fitHistory (effectiveMaxTokens 4000) (fixedTokens ("q".toList))
        [⟨"user".toList, "hi".toList⟩].reverse).2.1 +
      (countTokens (keptContext ("some retrieved context".toList)
        (remainingTokens (effectiveMaxTokens 4000)
          (fitHistory (effectiveMaxTokens 4000) (fixedTokens ("q".toList))
            [⟨"user".toList, "hi".toList⟩].reverse).2.1)) : Int) ≤
      effectiveMaxTokens 4000 :=
  prompt_counted_tokens_le 4000 ("some retrieved context".toList) ("q".toList)
    [⟨"user".toList, "hi".toList⟩] (by decide)

/-- Space and tab are Go whitespace. -/
theorem sptab_goSpace (c : Char) (h : isSpaceOrTab c = true) : isGoSpace c = true := by
  rcases (by simpa [isSpaceOrTab] using h : c = ' ' ∨ c = '\t') with rfl | rfl <;> decide

/-- A character that is not Go whitespace is not space-or-tab. -/
theorem not_sptab_of_not_goSpace (c : Char) (h : isGoSpace c = false) :
    isSpaceOrTab c = false := by
  cases hsp : isSpaceOrTab c
  · rfl
  · rw [sptab_goSpace c hsp] at h
    cases h

/-- Dropping nothing: `dropWhile` is the identity when the head fails the
predicate. -/
theorem dropWhile_eq_self_of (p : Char → Bool) (l : List Char)
    (h : ∀ hd ∈ l.head?, p hd = false) : l.dropWhile p = l := by
  cases l with
  | nil => rfl
  | cons c rest =>
    rw [List.dropWhile_cons, if_neg (by simp [h c (by simp)])]

/-- The head surviving `dropWhile` fails the predicate. -/
theorem head?_dropWhile (p : Char → Bool) (l : List Char) :
    ∀ hd ∈ (l.dropWhile p).head?, p hd = false := by
  induction l with
  | nil => intro hd h; simp at h
  | cons c rest ih =>
    intro hd h
    rw [List.dropWhile_cons] at h
    by_cases hc : p c = true
    · rw [if_pos hc] at h
      exact ih hd h
    · rw [if_neg hc] at h
      simp at h
      rw [← h]
      simpa using hc

/-- A nonempty suffix shares its last element with the whole list. -/
theorem getLast?_of_suffix {l₁ l₂ : List Char} (h : l₁ <:+ l₂) (hne : l₁ ≠ []) :
    l₂.getLast? = l₁.getLast? := by
  obtain ⟨t, rfl⟩ := h
  rw [List.getLast?_append]
  cases hl : l₁.getLast? with
  | none => exact absurd (List.getLast?_eq_none_iff.mp hl) hne
  | some v => simp

/-- A string whose boundary characters are not whitespace is trim-stable. -/
theorem trimSpace_eq_self (y : List Char)
    (hh : ∀ hd ∈ y.head?, isGoSpace hd = false)
    (hl : ∀ lst ∈ y.getLast?, isGoSpace lst = false) : trimSpace y = y := by
  unfold trimSpace
  rw [dropWhile_eq_self_of _ _ hh]
  rw [dropWhile_eq_self_of _ _ (by rw [List.head?_reverse]; exact hl)]
  exact List.reverse_reverse y

/-- The boundary characters of a trimmed string are not whitespace. -/
theorem trimSpace_bounds (x : List Char) :
    (∀ hd ∈ (trimSpace x).head?, isGoSpace hd = false) ∧
    (∀ lst ∈ (trimSpace x).getLast?, isGoSpace lst = false) := by
  unfold trimSpace
  constructor
  · intro hd h
    rw [List.head?_reverse] at h
    rcases hw : (x.dropWhile isGoSpace).reverse.dropWhile isGoSpace with _ | ⟨c, w⟩
    · rw [hw] at h
      simp at h
    · have hne : (x.dropWhile isGoSpace).reverse.dropWhile isGoSpace ≠ [] := by
        rw [hw]; simp
      have := getLast?_of_suffix (List.dropWhile_suffix isGoSpace) hne
      rw [← this, List.getLast?_reverse] at h
      exact head?_dropWhile isGoSpace x hd h
  · intro lst h
    rw [List.getLast?_reverse] at h
    exact head?_dropWhile isGoSpace _ lst h

/-- One-step unfolding of the collapse scan on a cons cell. -/
theorem nwAux_cons (b : Bool) (c : Char) (rest : List Char) :
    nwAux b (c :: rest) =
      if isSpaceOrTab c then (if b then nwAux true rest else ' ' :: nwAux true rest)
      else c :: nwAux false rest := rfl

/-- The collapse scan preserves a non-space-or-tab head. -/
theorem nwAux_head? (t : List Char)
    (h : ∀ hd ∈ t.head?, isSpaceOrTab hd = false) :
    (nwAux false t).head? = t.head? := by
  cases t with
  | nil => rfl
  | cons c rest =>
    have hc : isSpaceOrTab c = false := h c (by simp)
    simp [nwAux, hc]

/-- The collapse scan of a string whose last character is not space-or-tab is
nonempty when the string is. -/
theorem nwAux_ne_nil : ∀ (y : List Char) (b : Bool), y ≠ [] →
    (∀ lst ∈ y.getLast?, isSpaceOrTab lst = false) → nwAux b y ≠ [] := by
  intro y
  induction y with
  | nil => intro b h _; exact absurd rfl h
  | cons c rest ih =>
    intro b _ hlast
    cases hr : rest with
    | nil =>
      subst hr
      have hc : isSpaceOrTab c = false := hlast c (by simp)
      simp [nwAux, hc]
    | cons d rest' =>
      subst hr
      have hlast' : ∀ lst ∈ (d :: rest').getLast?, isSpaceOrTab lst = false := by
        intro lst hl
        exact hlast lst (by rwa [List.getLast?_cons_cons])
      by_cases hc : isSpaceOrTab c = true
      · cases b with
        | true =>
          rw [nwAux_cons, if_pos hc, if_pos rfl]
          exact ih true (by simp) hlast'
        | false =>
          rw [nwAux_cons, if_pos hc, if_neg (by simp)]
          simp
      · rw [nwAux_cons, if_neg hc]
        simp

/-- Dropping the head of a cons list with nonempty tail keeps its last
element. -/
theorem getLast?_cons_ne {a : Char} {w : List Char} (h : w ≠ []) :
    (a :: w).getLast? = w.getLast? := by
  cases w with
  | nil => exact absurd rfl h
  | cons d w' => rw [List.getLast?_cons_cons]

/-- The collapse scan preserves a non-space-or-tab last character. -/
theorem nwAux_getLast? : ∀ (y : List Char) (b : Bool),
    (∀ lst ∈ y.getLast?, isSpaceOrTab lst = false) →
    (nwAux b y).getLast? = y.getLast? := by
  intro y
  induction y with
  | nil => intro b _; rfl
  | cons c rest ih =>
    intro b hlast
    cases hr : rest with
    | nil =>
      subst hr
      have hc : isSpaceOrTab c = false := hlast c (by simp)
      simp [nwAux, hc]
    | cons d rest' =>
      subst hr
      have hlast' : ∀ lst ∈ (d :: rest').getLast?, isSpaceOrTab lst = false := by
        intro lst hl
        exact hlast lst (by rwa [List.getLast?_cons_cons])
      have hne : nwAux true (d :: rest') ≠ [] := nwAux_ne_nil _ true (by simp) hlast'
      have hne' : nwAux false (d :: rest') ≠ [] := nwAux_ne_nil _ false (by simp) hlast'
      by_cases hc : isSpaceOrTab c = true
      · cases b with
        | true =>
          rw [nwAux_cons, if_pos hc, if_pos rfl]
          rw [ih true hlast', List.getLast?_cons_cons]
        | false =>
          rw [nwAux_cons, if_pos hc, if_neg (by simp)]
          rw [getLast?_cons_ne hne, ih true hlast', List.getLast?_cons_cons]
      · rw [nwAux_cons, if_neg hc]
        rw [getLast?_cons_ne hne', ih false hlast', List.getLast?_cons_cons]

/-- After skipping a run (`inRun = true`), the next emitted character is not
space-or-tab. -/
theorem nwAux_true_head? : ∀ (y : List Char),
    ∀ hd ∈ (nwAux true y).head?, isSpaceOrTab hd = false := by
  intro y
  induction y with
  | nil => intro hd h; simp [nwAux] at h
  | cons c rest ih =>
    intro hd h
    by_cases hc : isSpaceOrTab c = true
    · rw [nwAux_cons, if_pos hc, if_pos rfl] at h
      exact ih hd h
    · rw [nwAux_cons, if_neg hc] at h
      simp at h
      rw [← h]
      simpa using hc

/-- The collapse scan emits no tab. -/
theorem nwAux_no_tab (b : Bool) (y : List Char) :
    ∀ c ∈ nwAux b y, c ≠ '\t' := by
  intro c hc
  rcases mem_nwAux b y hc with h | ⟨_, h⟩
  · rw [h]; decide
  · intro hcc
    rw [hcc] at h
    exact absurd h (by decide)

/-- The collapse scan never emits two adjacent space-or-tab characters. -/
theorem nwAux_chain : ∀ (y : List Char) (b : Bool),
    List.Chain' (fun a d => isSpaceOrTab a = false ∨ isSpaceOrTab d = false)
      (nwAux b y) := by
  intro y
  induction y with
  | nil => intro b; simp [nwAux]
  | cons c rest ih =>
    intro b
    by_cases hc : isSpaceOrTab c = true
    · cases b with
      | true =>
        rw [nwAux_cons, if_pos hc, if_pos rfl]
        exact ih true
      | false =>
        rw [nwAux_cons, if_pos hc, if_neg (by simp)]
        rw [List.chain'_cons']
        exact ⟨fun hd h => Or.inr (nwAux_true_head? rest hd h), ih true⟩
    · rw [nwAux_cons, if_neg hc]
      rw [List.chain'_cons']
      exact ⟨fun hd _ => Or.inl (by simpa using hc), ih false⟩

/-- Tab-free strings without adjacent space-or-tab pairs are fixed points of
the collapse scan. -/
theorem nwAux_fix : ∀ (w : List Char), (∀ c ∈ w, c ≠ '\t') →
    List.Chain' (fun a d => isSpaceOrTab a = false ∨ isSpaceOrTab d = false) w →
    nwAux false w = w := by
  intro w
  induction w with
  | nil => intro _ _; rfl
  | cons c rest ih =>
    intro htab hchain
    by_cases hc : isSpaceOrTab c = true
    · have hcsp : c = ' ' := by
        rcases (by simpa [isSpaceOrTab] using hc : c = ' ' ∨ c = '\t') with rfl | rfl
        · rfl
        · exact absurd rfl (htab '\t' (by simp))
      subst hcsp
      cases rest with
      | nil => simp [nwAux]
      | cons d rest' =>
        have hd : isSpaceOrTab d = false := by
          rcases (List.chain'_cons.mp hchain).1 with h | h
          · exact absurd h (by decide)
          · exact h
        have hstep : nwAux true (d :: rest') = nwAux false (d :: rest') := by
          rw [nwAux_cons, nwAux_cons, if_neg (by simp [hd]), if_neg (by simp [hd])]
        rw [nwAux_cons, if_pos hc, if_neg (by simp)]
        rw [hstep, ih (fun x hx => htab x (List.mem_cons_of_mem _ hx))
          (List.chain'_cons.mp hchain).2]
    · rw [nwAux_cons, if_neg hc]
      rw [ih (fun x hx => htab x (List.mem_cons_of_mem _ hx)) hchain.tail]

/-- Entity-free characters are fixed by `escapeChar`. -/
theorem escapeChar_eq_self {c : Char} (h : isHtmlSpecial c = false) :
    escapeChar c = [c] := by
  simp only [isHtmlSpecial, Bool.or_eq_false_iff, decide_eq_false_iff_not] at h
  obtain ⟨⟨⟨⟨h1, h2⟩, h3⟩, h4⟩, h5⟩ := h
  simp [escapeChar, h1, h2, h3, h4, h5]

/-- Entity-free strings are fixed by `escapeString`. -/
theorem escapeString_eq_self {s : List Char}
    (h : ∀ c ∈ s, isHtmlSpecial c = false) : escapeString s = s := by
  induction s with
  | nil => rfl
  | cons c rest ih =>
    unfold escapeString at ih ⊢
    rw [List.flatMap_cons, escapeChar_eq_self (h c (by simp)),
      ih (fun x hx => h x (List.mem_cons_of_mem _ hx))]
    rfl

/-- Literal replacement is the identity when some pattern character is absent
from the input. -/
theorem replaceAllF_eq_self {pat rep : List Char} {d : Char} (hd : d ∈ pat) :
    ∀ (fuel : Nat) (s : List Char), d ∉ s → replaceAllF pat rep fuel s = s := by
  intro fuel
  induction fuel with
  | zero => intro s _; rfl
  | succ fuel ih =>
    intro s hs
    cases s with
    | nil => rfl
    | cons c rest =>
      have hp : ¬(pat ≠ [] ∧ pat.isPrefixOf (c :: rest) = true) := by
        rintro ⟨-, hpre⟩
        exact hs (( List.isPrefixOf_iff_prefix.mp hpre).subset hd)
      simp only [replaceAllF]
      rw [if_neg hp]
      rw [ih rest (fun h => hs (List.mem_cons_of_mem c h))]

/-- The (ineffective) newline step is the identity on brace-free strings. -/
theorem limitNL_eq_self {s : List Char} (h : Char.ofNat 123 ∉ s) :
    limitConsecutiveNewlines s 3 = s := by
  unfold limitConsecutiveNewlines replaceAll
  exact replaceAllF_eq_self (by decide) _ s h

/-- C2 (amended): the sanitizer is idempotent on inputs that contain no
character of the removed control class, none of the five HTML-escaped
characters, and no left brace.  (Each exclusion is necessary: escaping grows
ampersands, removing a control character can expose trimmable whitespace, and
the accidental `\n{,}` literal replacement can create trailing newlines.) -/
theorem sanitize_idempotent_on (x : List Char)
    (h1 : ∀ c ∈ x, isRemovedControl c = false)
    (h2 : ∀ c ∈ x, isHtmlSpecial c = false)
    (h3 : Char.ofNat 123 ∉ x) :
    SanitizeInput (SanitizeInput x) = SanitizeInput x := by
  have htrim_mem : ∀ c ∈ trimSpace x, c ∈ x := fun c hc => mem_trimSpace hc
  have hctl : removeControlChars (trimSpace x) = trimSpace x := by
    unfold removeControlChars
    exact List.filter_eq_self.mpr
      (fun c hc => by rw [h1 c (htrim_mem c hc)]; rfl)
  have hesc : escapeString (trimSpace x) = trimSpace x :=
    escapeString_eq_self (fun c hc => h2 c (htrim_mem c hc))
  have hzmem : ∀ c ∈ nwAux false (trimSpace x), c = ' ' ∨ c ∈ x := by
    intro c hc
    rcases mem_nwAux false _ hc with h | ⟨hm, _⟩
    · exact Or.inl h
    · exact Or.inr (htrim_mem c hm)
  have hzbrace : Char.ofNat 123 ∉ nwAux false (trimSpace x) := by
    intro hb
    rcases hzmem _ hb with h | h
    · exact absurd h (by decide)
    · exact h3 h
  have hpass1 : SanitizeInput x = nwAux false (trimSpace x) := by
    unfold SanitizeInput normalizeWhitespace
    rw [hctl, hesc]
    exact limitNL_eq_self hzbrace
  rw [hpass1]
  have htb := trimSpace_bounds x
  have hth : ∀ hd ∈ (trimSpace x).head?, isSpaceOrTab hd = false :=
    fun hd h => not_sptab_of_not_goSpace hd (htb.1 hd h)
  have htl : ∀ lst ∈ (trimSpace x).getLast?, isSpaceOrTab lst = false :=
    fun lst h => not_sptab_of_not_goSpace lst (htb.2 lst h)
  have hzhead : ∀ hd ∈ (nwAux false (trimSpace x)).head?, isGoSpace hd = false := by
    rw [nwAux_head? _ hth]
    exact htb.1
  have hzlast : ∀ lst ∈ (nwAux false (trimSpace x)).getLast?, isGoSpace lst = false := by
    rw [nwAux_getLast? _ false htl]
    exact htb.2
  have hztrim : trimSpace (nwAux false (trimSpace x)) = nwAux false (trimSpace x) :=
    trimSpace_eq_self _ hzhead hzlast
  have hzctl : removeControlChars (nwAux false (trimSpace x)) = nwAux false (trimSpace x) := by
    unfold removeControlChars
    refine List.filter_eq_self.mpr (fun c hc => ?_)
    rcases hzmem c hc with rfl | h
    · rfl
    · rw [h1 c h]; rfl
  have hzesc : escapeString (nwAux false (trimSpace x)) = nwAux false (trimSpace x) := by
    refine escapeString_eq_self (fun c hc => ?_)
    rcases hzmem c hc with rfl | h
    · rfl
    · exact h2 c h
  have hznw : nwAux false (nwAux false (trimSpace x)) = nwAux false (trimSpace x) :=
    nwAux_fix _ (nwAux_no_tab false (trimSpace x)) (nwAux_chain (trimSpace x) false)
  unfold SanitizeInput normalizeWhitespace
  rw [hztrim, hzctl, hzesc, hznw]
  exact limitNL_eq_self hzbrace

/-- C2 amended-claim witness: a concrete clean input is a sanitize fixed
point of the second application. -/
theorem sanitize_idempotent_on_witness :
    SanitizeInput (SanitizeInput ("a b\ncd".toList)) = SanitizeInput ("a b\ncd".toList) :=
  sanitize_idempotent_on ("a b\ncd".toList) (by decide) (by decide) (by decide)

/-- C10 (counterexample): carriage return — a C0 control character other than
newline — survives sanitization: the control-filter class spares 0x0D and no
later step touches it. -/
theorem sanitize_keeps_carriage_return :
    (SanitizeInput ("a\rb".toList)).any (fun c => isC0OrDel c && !(c == '\n')) = true := by
  decide

/-- C10 (amended): newline and carriage return are the only control
characters (C0 or DEL) that can appear in `SanitizeInput` output; in
particular no tab survives (the whitespace-collapse step turns every tab
into a space). -/
theorem sanitize_control_chars (x : List Char) (c : Char)
    (hc : c ∈ SanitizeInput x) (hctl : isC0OrDel c = true) :
    c = '\n' ∨ c = '\r' := by
  unfold SanitizeInput limitConsecutiveNewlines replaceAll normalizeWhitespace at hc
  rcases mem_replaceAllF _ _ _ _ hc with hrep | hnw
  · exact Or.inl (List.eq_of_mem_replicate hrep)
  · rcases mem_nwAux _ _ hnw with hsp | ⟨hesc, hnst⟩
    · rw [hsp] at hctl
      exact absurd hctl (by decide)
    · rw [escapeString] at hesc
      obtain ⟨d, hd, hcd⟩ := List.mem_flatMap.mp hesc
      rcases escapeChar_ctl hcd with rfl | hnotctl
      · rw [removeControlChars] at hd
        obtain ⟨hmem, hpass⟩ := List.mem_filter.mp hd
        exact ctl_resolve c hctl (by simpa using hpass) hnst
      · exact absurd hctl (by simp [hnotctl])

/-- C10 amended-claim witness: the newline of a sanitized two-line input is a
control character in the output and is resolved to the allowed set. -/
theorem sanitize_control_chars_witness :
    '\n' ∈ SanitizeInput ("a\nb".toList) ∧ isC0OrDel '\n' = true ∧
      ('\n' = '\n' ∨ '\n' = '\r') :=
  ⟨by decide, by decide,
    sanitize_control_chars ("a\nb".toList) '\n' (by decide) (by decide)⟩

/-- C9 witness: a concrete text and budget pair. -/
theorem truncation_monotone_witness :
    (keptContext (List.replicate 100 'a') 2).length ≤
      (keptContext (List.replicate 100 'a') 5).length ∧
    ((truncateToTokens (List.replicate 100 'a') 2).1 =
        keptContext (List.replicate 100 'a') 2 ∨
      (truncateToTokens (List.replicate 100 'a') 2).1 =
        keptContext (List.replicate 100 'a') 2 ++ truncIndicator) :=
  truncation_monotone (List.replicate 100 'a') 2 5 (by decide)

end PokeBot
